import Mathlib

/-!
Verification of the tabular policy-iteration engine in
`src/assignment2/policy_iteration.py`.

The program is shallowly embedded over exact rationals: states are `Fin S`,
actions are `Fin A`, the transition tensor `P` and reward table `r` are dense
rational arrays (functions), and every loop of the source is modelled either as
an explicit iterate sequence (the evaluation `while` loop) or as structural
recursion (episode rollout).  Array shapes of the NumPy code become the types
of the corresponding functions.
-/

open Finset

/-- The tabular MDP model the constructor extracts from the environment:
`P s2 s1 a` is the probability of landing in `s2` after action `a` in `s1`
(the source's `self.P[s', s, a]`), and `r s a` is the expected immediate
reward (the source's `self.r[s, a]`). -/
structure MDP (S A : ℕ) where
  P : Fin S → Fin S → Fin A → ℚ
  r : Fin S → Fin A → ℚ

/-- The uniform policy `np.ones((S, A)) / A` used to initialize `self.policy`
in `__init__` and to reset it at the top of `policy_improvement`. -/
def uniform_policy (S A : ℕ) : Fin S → Fin A → ℚ :=
  fun _ _ => 1 / (A : ℚ)

/-- A policy matrix is row-stochastic: nonnegative entries, each row sums
to `1` (spec, data model invariant for `π`). -/
def RowStochastic {S A : ℕ} (pol : Fin S → Fin A → ℚ) : Prop :=
  ∀ s, (∀ a, 0 ≤ pol s a) ∧ ∑ a, pol s a = 1

/-- The transition tensor is a (sub)stochastic family of distributions:
nonnegative entries and, for every state-action pair, total outgoing mass
at most `1` (spec, data model invariant for `P`). -/
def ValidTransitions {S A : ℕ} (m : MDP S A) : Prop :=
  (∀ s2 s a, 0 ≤ m.P s2 s a) ∧ ∀ s a, ∑ s2, m.P s2 s a ≤ 1

/-- `r_pi = np.einsum('sa,sa->s', self.r, self.policy)`:
policy-induced expected reward per state. -/
def r_pi {S A : ℕ} (m : MDP S A) (pol : Fin S → Fin A → ℚ) (s : Fin S) : ℚ :=
  ∑ a, m.r s a * pol s a

/-- `P_pi = np.einsum('tsa,sa->ts', self.P, self.policy)`:
policy-induced transition matrix, `P_pi s2 s1 = Σ_a P[s2,s1,a]·π[s1,a]`. -/
def P_pi {S A : ℕ} (m : MDP S A) (pol : Fin S → Fin A → ℚ) (s2 s1 : Fin S) : ℚ :=
  ∑ a, m.P s2 s1 a * pol s1 a

/-- One synchronous sweep of the evaluation loop,
`v = r_pi + gamma * np.dot(P_pi.T, v_old)`. -/
def bellmanOp {S A : ℕ} (m : MDP S A) (pol : Fin S → Fin A → ℚ) (γ : ℚ)
    (v : Fin S → ℚ) (s : Fin S) : ℚ :=
  r_pi m pol s + γ * ∑ s2, P_pi m pol s2 s * v s2

/-- The iterates of the `while True` loop of `policy_evaluation`, starting
from `v = np.zeros(S)`; after the loop body has run `n` times the vector `v`
holds `policy_evaluation_iterates m pol γ n`. -/
def policy_evaluation_iterates {S A : ℕ} (m : MDP S A) (pol : Fin S → Fin A → ℚ)
    (γ : ℚ) : ℕ → Fin S → ℚ
  | 0 => fun _ => 0
  | n + 1 => bellmanOp m pol γ (policy_evaluation_iterates m pol γ n)

/-- `Finset.univ` over a nonempty state space is nonempty (needed for the
`np.max` reduction below, which errors on an empty array). -/
def univNonempty {S : ℕ} (hS : 0 < S) : (Finset.univ : Finset (Fin S)).Nonempty :=
  ⟨⟨0, hS⟩, Finset.mem_univ _⟩

/-- `delta = np.max(np.abs(v - v_old))` computed by the `n`-th run of the
loop body (comparing iterate `n+1` against iterate `n`); the loop breaks at
the first `n` with `policy_evaluation_delta … n < ε`, returning iterate
`n+1`. -/
def policy_evaluation_delta {S A : ℕ} (m : MDP S A) (pol : Fin S → Fin A → ℚ)
    (γ : ℚ) (hS : 0 < S) (n : ℕ) : ℚ :=
  Finset.univ.sup' (univNonempty hS) fun s =>
    |policy_evaluation_iterates m pol γ (n + 1) s -
      policy_evaluation_iterates m pol γ n s|

/-- `compute_Q_from_v`: `Q = self.r + gamma * np.einsum('tsa,t->sa', self.P, v)`. -/
def compute_Q_from_v {S A : ℕ} (m : MDP S A) (v : Fin S → ℚ) (γ : ℚ) :
    Fin S → Fin A → ℚ :=
  fun s a => m.r s a + γ * ∑ s2, m.P s2 s a * v s2

/-- One comparison step of NumPy's `argmax` scan: keep the incumbent unless
the candidate is strictly larger (so the first occurrence of the maximum
wins). -/
def argmaxStep {n : ℕ} (f : Fin n → ℚ) (best i : Fin n) : Fin n :=
  if f best < f i then i else best

/-- `np.argmax` over one row: start from index `0` and scan the remaining
indices in order, keeping the first occurrence of the maximum. -/
def npArgmax {n : ℕ} (f : Fin n → ℚ) (h : 0 < n) : Fin n :=
  ((List.finRange n).drop 1).foldl (argmaxStep f) ⟨0, h⟩

/-- A deterministic policy matrix: row `s` has a single `1` at column `d s`
(the shape produced by `self.policy[np.arange(S), np.argmax(Q, axis=1)] = 1.0`
after zeroing). -/
def detPolicy {S A : ℕ} (d : Fin S → Fin A) : Fin S → Fin A → ℚ :=
  fun s a => if a = d s then 1 else 0

/-- The greedy policy built by the improvement loop body from a `Q` table:
`np.zeros_like` followed by writing `1.0` at `(s, argmax Q[s,:])`. -/
def greedy_policy {S A : ℕ} (Q : Fin S → Fin A → ℚ) (hA : 0 < A) :
    Fin S → Fin A → ℚ :=
  detPolicy fun s => npArgmax (fun a => Q s a) hA

/-- The greedy action selector of the improvement loop, as a function of the
value vector the loop just computed: `np.argmax` of the derived `Q` row. -/
def greedyAction {S A : ℕ} (m : MDP S A) (γ : ℚ) (hA : 0 < A)
    (v : Fin S → ℚ) : Fin S → Fin A :=
  fun s => npArgmax (fun a => compute_Q_from_v m v γ s a) hA

/-- The constructor's accumulation of `self.r[s,a] += prob * reward` over the
outcome list `env.P[s][a]`, whose entries are `(prob, next_state, reward, done)`
tuples. -/
def extract_r {S : ℕ} (outcomes : List (ℚ × Fin S × ℚ × Bool)) : ℚ :=
  outcomes.foldl (fun acc o => acc + o.1 * o.2.2.1) 0

/-- The constructor's accumulation of `self.P[next_state, s, a] += prob` over
the outcome list: only entries whose `next_state` equals `s2` contribute to
`P[s2, s, a]`. -/
def extract_P {S : ℕ} (outcomes : List (ℚ × Fin S × ℚ × Bool)) (s2 : Fin S) : ℚ :=
  outcomes.foldl (fun acc o => if o.2.1 = s2 then acc + o.1 else acc) 0

/-! ### Episode rollout (`run_episode`, lines 103–126) -/

/-- The `for t in range(max_episode_length)` loop of `run_episode`.
`stepf t` is the outcome `(next_state, reward, done)` of the `t`-th call to
`env.step` (the environment and the stochastic action sampling are oracles:
the claims hold for every possible outcome trace).  `fuel` is the number of
loop iterations remaining, `t` the number of `env.step` calls made so far and
`acc` the accumulated `episode_reward`.  Returns the final `episode_reward`
together with the total number of `env.step` calls. -/
def run_episode_loop {S : ℕ} (stepf : ℕ → Fin S × ℚ × Bool) :
    ℕ → ℕ → ℚ → ℚ × ℕ
  | 0, t, acc => (acc, t)
  | fuel + 1, t, acc =>
    let res := stepf t
    if res.2.2 then (acc + res.2.1, t + 1)
    else run_episode_loop stepf fuel (t + 1) (acc + res.2.1)

/-- `run_episode`: reward accumulator starts at `0`, the loop runs at most
`max_episode_length` iterations, each making exactly one `env.step` call. -/
def run_episode {S : ℕ} (stepf : ℕ → Fin S × ℚ × Bool)
    (max_episode_length : ℕ) : ℚ × ℕ :=
  run_episode_loop stepf max_episode_length 0 0

/-! ### Method frame conditions -/

/-- The mutable state of a `PolicyIteration` object: the fields written by
`__init__` and read by the methods. -/
structure PIState (S A : ℕ) where
  policy : Fin S → Fin A → ℚ
  P : Fin S → Fin S → Fin A → ℚ
  r : Fin S → Fin A → ℚ

/-- The immutable model part of the object state. -/
def mdpOf {S A : ℕ} (st : PIState S A) : MDP S A :=
  ⟨st.P, st.r⟩

/-- `policy_evaluation` as a method: it reads `self.r`, `self.P` and
`self.policy`, runs the evaluation loop (whose stopping test first succeeds
at iteration index `n`, so the loop body runs `n+1` times) and returns the
final iterate; its body assigns no field of `self`, so the resulting object
state is the input state. -/
def policy_evaluation_method {S A : ℕ} (st : PIState S A) (γ : ℚ) (n : ℕ) :
    (Fin S → ℚ) × PIState S A :=
  (policy_evaluation_iterates (mdpOf st) st.policy γ (n + 1), st)

/-- `compute_Q_from_v` as a method: reads `self.r` and `self.P`, writes no
field. -/
def compute_Q_from_v_method {S A : ℕ} (st : PIState S A) (v : Fin S → ℚ)
    (γ : ℚ) : (Fin S → Fin A → ℚ) × PIState S A :=
  (compute_Q_from_v (mdpOf st) v γ, st)

/-- One round of the `policy_improvement` loop body as a state transformer:
evaluate, derive `Q`, overwrite `self.policy` with the greedy policy.  The
only field assigned is `policy`. -/
def policy_improvement_step_method {S A : ℕ} (hA : 0 < A) (st : PIState S A)
    (γ : ℚ) (n : ℕ) : PIState S A :=
  { st with
    policy :=
      greedy_policy
        (compute_Q_from_v (mdpOf st) (policy_evaluation_method st γ n).1 γ) hA }

/-! ### List-accumulation lemmas for the extractor -/

lemma foldl_add_eq_sum {α : Type} (g : α → ℚ) :
    ∀ (L : List α) (c : ℚ), L.foldl (fun acc o => acc + g o) c = c + (L.map g).sum
  | [], c => by simp
  | x :: L, c => by
    rw [List.foldl_cons, foldl_add_eq_sum g L (c + g x), List.map_cons,
      List.sum_cons, add_assoc]

lemma foldl_ite_add_eq_sum {α : Type} (p : α → Prop) [DecidablePred p] (g : α → ℚ) :
    ∀ (L : List α) (c : ℚ),
      L.foldl (fun acc o => if p o then acc + g o else acc) c
        = c + ((L.filter fun o => p o).map g).sum
  | [], c => by simp
  | x :: L, c => by
    rw [List.foldl_cons]
    by_cases h : p x
    · have hfil : List.filter (fun o => decide (p o)) (x :: L)
          = x :: List.filter (fun o => decide (p o)) L := by
        simp [List.filter_cons, h]
      rw [if_pos h, hfil, List.map_cons, List.sum_cons,
        foldl_ite_add_eq_sum p g L (c + g x), add_assoc]
    · have hfil : List.filter (fun o => decide (p o)) (x :: L)
          = List.filter (fun o => decide (p o)) L := by
        simp [List.filter_cons, h]
      rw [if_neg h, hfil, foldl_ite_add_eq_sum p g L c]

/-- C2: `compute_Q_from_v` returns exactly
`Q[s,a] = r[s,a] + γ·Σ_s2 P[s2,s,a]·v[s2]`, the one-step lookahead through
the full policy-unweighted transition tensor, as a pure function of `v`, `γ`,
`P` and `r` with no iteration. -/
theorem compute_Q_from_v_spec {S A : ℕ} (m : MDP S A) (v : Fin S → ℚ) (γ : ℚ)
    (s : Fin S) (a : Fin A) :
    compute_Q_from_v m v γ s a = m.r s a + γ * ∑ s2, m.P s2 s a * v s2 :=
  rfl

/-- C6: the model extractor accumulates `r[s,a]` as the sum of
`probability · reward` over the outcome list, and `P[s2,s,a]` as the sum of
the probabilities of exactly those outcome entries whose `next_state` is
`s2` — entries sharing a `next_state` are summed, not overwritten. -/
theorem extractor_aggregates {S : ℕ} (outcomes : List (ℚ × Fin S × ℚ × Bool))
    (s2 : Fin S) :
    extract_r outcomes = (outcomes.map fun o => o.1 * o.2.2.1).sum ∧
    extract_P outcomes s2
      = ((outcomes.filter fun o => o.2.1 = s2).map fun o => o.1).sum := by
  constructor
  · unfold extract_r
    simpa using foldl_add_eq_sum (fun o => o.1 * o.2.2.1) outcomes 0
  · unfold extract_P
    simpa using foldl_ite_add_eq_sum (fun o => o.2.1 = s2) (fun o => o.1) outcomes 0

/-! ### Rollout bound -/

lemma run_episode_loop_spec {S : ℕ} (stepf : ℕ → Fin S × ℚ × Bool) :
    ∀ (fuel t : ℕ) (acc : ℚ),
      t ≤ (run_episode_loop stepf fuel t acc).2 ∧
      (run_episode_loop stepf fuel t acc).2 ≤ t + fuel ∧
      (run_episode_loop stepf fuel t acc).1
        = acc + ∑ i ∈ Finset.Ico t (run_episode_loop stepf fuel t acc).2,
            (stepf i).2.1
  | 0, t, acc => by simp [run_episode_loop]
  | fuel + 1, t, acc => by
    by_cases h : (stepf t).2.2
    · simp only [run_episode_loop]
      rw [if_pos h]
      refine ⟨Nat.le_succ t, by omega, ?_⟩
      rw [Nat.Ico_succ_singleton, Finset.sum_singleton]
    · simp only [run_episode_loop]
      rw [if_neg h]
      obtain ⟨h1, h2, h3⟩ := run_episode_loop_spec stepf fuel (t + 1) (acc + (stepf t).2.1)
      refine ⟨by omega, by omega, ?_⟩
      have hc : t < (run_episode_loop stepf fuel (t + 1) (acc + (stepf t).2.1)).2 := by
        omega
      rw [h3, Finset.sum_eq_sum_Ico_succ_bot hc, ← add_assoc]

/-- C9: `run_episode` calls the environment's `step` at most
`max_episode_length` times, and the returned episode reward is exactly the
sum of the rewards of the steps actually taken. -/
theorem run_episode_bounded_and_sums {S : ℕ} (stepf : ℕ → Fin S × ℚ × Bool)
    (max_episode_length : ℕ) :
    (run_episode stepf max_episode_length).2 ≤ max_episode_length ∧
    (run_episode stepf max_episode_length).1
      = ∑ i ∈ Finset.range (run_episode stepf max_episode_length).2,
          (stepf i).2.1 := by
  obtain ⟨h1, h2, h3⟩ := run_episode_loop_spec stepf max_episode_length 0 0
  refine ⟨by simpa using h2, ?_⟩
  rw [Finset.range_eq_Ico]
  simpa using h3

/-- C10: `policy_evaluation` and `compute_Q_from_v` leave every field of the
object unchanged, and the `policy_improvement` loop body writes only the
`policy` field, never `P` or `r`. -/
theorem methods_preserve_state {S A : ℕ} (hA : 0 < A) (st : PIState S A)
    (γ : ℚ) (n : ℕ) (v : Fin S → ℚ) :
    (policy_evaluation_method st γ n).2 = st ∧
    (compute_Q_from_v_method st v γ).2 = st ∧
    (policy_improvement_step_method hA st γ n).P = st.P ∧
    (policy_improvement_step_method hA st γ n).r = st.r :=
  ⟨rfl, rfl, rfl, rfl⟩

/-- Witness for C10 at a concrete one-state, one-action object state. -/
theorem methods_preserve_state_witness :
    (policy_evaluation_method
        (⟨fun _ _ => 1, fun _ _ _ => 1, fun _ _ => 1⟩ : PIState 1 1) 1 0).2
      = ⟨fun _ _ => 1, fun _ _ _ => 1, fun _ _ => 1⟩ ∧
    (compute_Q_from_v_method
        (⟨fun _ _ => 1, fun _ _ _ => 1, fun _ _ => 1⟩ : PIState 1 1)
        (fun _ => 0) 1).2
      = ⟨fun _ _ => 1, fun _ _ _ => 1, fun _ _ => 1⟩ ∧
    (policy_improvement_step_method Nat.one_pos
        (⟨fun _ _ => 1, fun _ _ _ => 1, fun _ _ => 1⟩ : PIState 1 1) 1 0).P
      = (fun _ _ _ => (1 : ℚ)) ∧
    (policy_improvement_step_method Nat.one_pos
        (⟨fun _ _ => 1, fun _ _ _ => 1, fun _ _ => 1⟩ : PIState 1 1) 1 0).r
      = fun _ _ => (1 : ℚ) :=
  methods_preserve_state Nat.one_pos _ 1 0 fun _ => 0

/-! ### First-occurrence argmax (`np.argmax`) -/

lemma argmax_foldl_spec {n : ℕ} (f : Fin n → ℚ) :
    ∀ (L : List (Fin n)) (b : Fin n), L.Pairwise (· < ·) → (∀ i ∈ L, b < i) →
      f b ≤ f (L.foldl (argmaxStep f) b) ∧
      (∀ i ∈ L, f i ≤ f (L.foldl (argmaxStep f) b)) ∧
      (L.foldl (argmaxStep f) b = b ∨
        (L.foldl (argmaxStep f) b ∈ L ∧ f b < f (L.foldl (argmaxStep f) b))) ∧
      ∀ i ∈ L, i < L.foldl (argmaxStep f) b → f i < f (L.foldl (argmaxStep f) b)
  | [], b, _, _ => by simp
  | x :: L, b, hpw, hb => by
    rw [List.foldl_cons]
    have hpwL : L.Pairwise (· < ·) := List.Pairwise.of_cons hpw
    have hxL : ∀ i ∈ L, x < i := fun i hi => (List.pairwise_cons.mp hpw).1 i hi
    have hbL : ∀ i ∈ L, argmaxStep f b x < i := by
      intro i hi
      unfold argmaxStep
      split_ifs
      · exact hxL i hi
      · exact hb i (List.mem_cons_of_mem x hi)
    have hfbb : f b ≤ f (argmaxStep f b x) := by
      unfold argmaxStep
      split_ifs with hcmp
      · exact le_of_lt hcmp
      · exact le_refl _
    have hfxb : f x ≤ f (argmaxStep f b x) := by
      unfold argmaxStep
      split_ifs with hcmp
      · exact le_refl _
      · exact le_of_not_lt hcmp
    have hbcases : argmaxStep f b x = b ∨ (argmaxStep f b x = x ∧ f b < f x) := by
      unfold argmaxStep
      split_ifs with hcmp
      · exact Or.inr ⟨rfl, hcmp⟩
      · exact Or.inl rfl
    obtain ⟨ih1, ih2, ih3, ih4⟩ := argmax_foldl_spec f L (argmaxStep f b x) hpwL hbL
    refine ⟨hfbb.trans ih1, ?_, ?_, ?_⟩
    · intro i hi
      rcases List.mem_cons.mp hi with rfl | hi2
      · exact hfxb.trans ih1
      · exact ih2 i hi2
    · rcases ih3 with hres | ⟨hmem, hlt⟩
      · rcases hbcases with hbb | ⟨hbx, hfblt⟩
        · rw [hres, hbb]
          exact Or.inl rfl
        · refine Or.inr ⟨?_, ?_⟩
          · rw [hres, hbx]
            exact List.mem_cons_self x L
          · rw [hres, hbx]
            exact hfblt
      · exact Or.inr ⟨List.mem_cons_of_mem x hmem, lt_of_le_of_lt hfbb hlt⟩
    · intro i hi hilt
      rcases List.mem_cons.mp hi with rfl | hi2
      · rcases ih3 with hres | ⟨_, hlt⟩
        · exfalso
          rcases hbcases with hbb | ⟨hbx, _⟩
          · have hbi : b < i := hb i (List.mem_cons_self i L)
            rw [hres, hbb] at hilt
            exact lt_asymm hbi hilt
          · rw [hres, hbx] at hilt
            exact lt_irrefl i hilt
        · exact lt_of_le_of_lt hfxb hlt
      · exact ih4 i hi2 hilt

lemma npArgmax_spec {n : ℕ} (f : Fin n → ℚ) (h : 0 < n) :
    (∀ a, f a ≤ f (npArgmax f h)) ∧
    ∀ a, a < npArgmax f h → f a < f (npArgmax f h) := by
  rcases n with _ | m
  · exact absurd h (lt_irrefl 0)
  · have hdrop : (List.finRange (m + 1)).drop 1 = (List.finRange m).map Fin.succ := by
      rw [List.finRange_succ_eq_map, List.drop_one, List.tail_cons]
    have hpw : ((List.finRange (m + 1)).drop 1).Pairwise (· < ·) :=
      List.Pairwise.sublist (List.drop_sublist 1 _) (List.pairwise_lt_finRange _)
    have hzero : ∀ i ∈ (List.finRange (m + 1)).drop 1, (⟨0, h⟩ : Fin (m + 1)) < i := by
      intro i hi
      rw [hdrop] at hi
      obtain ⟨j, _, rfl⟩ := List.mem_map.mp hi
      simp [Fin.lt_def]
    have hmk : (⟨0, h⟩ : Fin (m + 1)) = 0 := rfl
    obtain ⟨h1, h2, h3, h4⟩ :=
      argmax_foldl_spec f ((List.finRange (m + 1)).drop 1) ⟨0, h⟩ hpw hzero
    have hmem : ∀ a : Fin (m + 1), a ≠ 0 → a ∈ (List.finRange (m + 1)).drop 1 := by
      intro a ha
      rw [hdrop]
      induction a using Fin.cases with
      | zero => exact absurd rfl ha
      | succ j => exact List.mem_map.mpr ⟨j, List.mem_finRange j, rfl⟩
    constructor
    · intro a
      by_cases ha : a = 0
      · rw [ha, ← hmk]
        exact h1
      · exact h2 a (hmem a ha)
    · intro a ha
      by_cases haz : a = 0
      · rcases h3 with hres | ⟨_, hlt⟩
        · exfalso
          rw [npArgmax, hres, hmk] at ha
          rw [haz] at ha
          exact lt_irrefl _ ha
        · rw [haz, ← hmk]
          exact hlt
      · exact h4 a (hmem a haz) ha

/-- C3: the policy built by each improvement round is deterministic and
greedy: in every state it puts probability `1` on the first-occurrence
argmax of the `Q` row (no strictly earlier action attains the maximum) and
probability `0` on every other action. -/
theorem policy_improvement_greedy_spec {S A : ℕ} (hA : 0 < A)
    (Q : Fin S → Fin A → ℚ) (s : Fin S) :
    greedy_policy Q hA s (npArgmax (fun a => Q s a) hA) = 1 ∧
    (∀ a, a ≠ npArgmax (fun a => Q s a) hA → greedy_policy Q hA s a = 0) ∧
    (∀ a, Q s a ≤ Q s (npArgmax (fun a => Q s a) hA)) ∧
    ∀ a, Q s a = Q s (npArgmax (fun a => Q s a) hA) → npArgmax (fun a => Q s a) hA ≤ a := by
  obtain ⟨hmax, hfirst⟩ := npArgmax_spec (fun a => Q s a) hA
  refine ⟨if_pos rfl, fun a ha => if_neg ha, hmax, ?_⟩
  intro a ha
  by_contra hc
  exact absurd ha (ne_of_lt (hfirst a (lt_of_not_le hc)))

/-- Witness for C3 on a one-state, one-action MDP with zero `Q`. -/
theorem policy_improvement_greedy_spec_witness :
    greedy_policy (fun _ _ => (0 : ℚ) : Fin 1 → Fin 1 → ℚ) Nat.one_pos 0
        (npArgmax (fun _ => (0 : ℚ) : Fin 1 → ℚ) Nat.one_pos) = 1 :=
  (policy_improvement_greedy_spec Nat.one_pos (fun _ _ => (0 : ℚ)) 0).1

/-- C7: row-stochasticity of the policy: the uniform initialization has
nonnegative rows summing to `1`, and so does every policy produced by the
greedy improvement step, whose rows moreover hold a single `1` and `0`
elsewhere. -/
theorem policy_row_stochastic (S A : ℕ) (hA : 0 < A) :
    RowStochastic (uniform_policy S A) ∧
    (∀ Q : Fin S → Fin A → ℚ, RowStochastic (greedy_policy Q hA)) ∧
    ∀ (Q : Fin S → Fin A → ℚ) (s : Fin S), ∃ a0,
      greedy_policy Q hA s a0 = 1 ∧ ∀ a, a ≠ a0 → greedy_policy Q hA s a = 0 := by
  have hAQ : (A : ℚ) ≠ 0 := Nat.cast_ne_zero.mpr (Nat.pos_iff_ne_zero.mp hA)
  refine ⟨?_, ?_, ?_⟩
  · intro s
    constructor
    · intro a
      unfold uniform_policy
      positivity
    · unfold uniform_policy
      rw [Finset.sum_const, Finset.card_univ, Fintype.card_fin, nsmul_eq_mul]
      field_simp
  · intro Q s
    constructor
    · intro a
      unfold greedy_policy detPolicy
      split_ifs
      · exact zero_le_one
      · exact le_refl 0
    · unfold greedy_policy detPolicy
      rw [Finset.sum_ite_eq' Finset.univ _ (fun _ => (1 : ℚ))]
      simp
  · intro Q s
    exact ⟨npArgmax (fun a => Q s a) hA, if_pos rfl, fun a ha => if_neg ha⟩

/-- Witness for C7 with one state and one action. -/
theorem policy_row_stochastic_witness :
    RowStochastic (uniform_policy 1 1) :=
  (policy_row_stochastic 1 1 Nat.one_pos).1

/-! ### Contraction of the synchronous evaluation sweep -/

lemma P_pi_nonneg {S A : ℕ} (m : MDP S A) (pol : Fin S → Fin A → ℚ)
    (hm : ValidTransitions m) (hpol : RowStochastic pol) (s2 s1 : Fin S) :
    0 ≤ P_pi m pol s2 s1 :=
  Finset.sum_nonneg fun a _ => mul_nonneg (hm.1 s2 s1 a) ((hpol s1).1 a)

lemma P_pi_col_sum_le_one {S A : ℕ} (m : MDP S A) (pol : Fin S → Fin A → ℚ)
    (hm : ValidTransitions m) (hpol : RowStochastic pol) (s1 : Fin S) :
    ∑ s2, P_pi m pol s2 s1 ≤ 1 := by
  unfold P_pi
  rw [Finset.sum_comm]
  calc ∑ a, ∑ s2, m.P s2 s1 a * pol s1 a
      = ∑ a, (∑ s2, m.P s2 s1 a) * pol s1 a := by
        refine Finset.sum_congr rfl fun a _ => ?_
        rw [Finset.sum_mul]
    _ ≤ ∑ a, 1 * pol s1 a :=
        Finset.sum_le_sum fun a _ =>
          mul_le_mul_of_nonneg_right (hm.2 s1 a) ((hpol s1).1 a)
    _ = 1 := by
        simp only [one_mul]
        exact (hpol s1).2

lemma bellman_contract {S A : ℕ} (m : MDP S A) (pol : Fin S → Fin A → ℚ)
    (γ : ℚ) (hm : ValidTransitions m) (hpol : RowStochastic pol) (hγ0 : 0 ≤ γ)
    (v w : Fin S → ℚ) (D : ℚ) (hD0 : 0 ≤ D) (hD : ∀ t, |v t - w t| ≤ D)
    (s : Fin S) :
    |bellmanOp m pol γ v s - bellmanOp m pol γ w s| ≤ γ * D := by
  have hsub : (∑ s2, P_pi m pol s2 s * v s2) - (∑ s2, P_pi m pol s2 s * w s2)
      = ∑ s2, P_pi m pol s2 s * (v s2 - w s2) := by
    rw [← Finset.sum_sub_distrib]
    exact Finset.sum_congr rfl fun s2 _ => (mul_sub _ _ _).symm
  have hdiff : bellmanOp m pol γ v s - bellmanOp m pol γ w s
      = γ * ∑ s2, P_pi m pol s2 s * (v s2 - w s2) := by
    unfold bellmanOp
    rw [← hsub]
    ring
  rw [hdiff, abs_mul, abs_of_nonneg hγ0]
  refine mul_le_mul_of_nonneg_left ?_ hγ0
  calc |∑ s2, P_pi m pol s2 s * (v s2 - w s2)|
      ≤ ∑ s2, |P_pi m pol s2 s * (v s2 - w s2)| := Finset.abs_sum_le_sum_abs _ _
    _ = ∑ s2, P_pi m pol s2 s * |v s2 - w s2| := by
        refine Finset.sum_congr rfl fun s2 _ => ?_
        rw [abs_mul, abs_of_nonneg (P_pi_nonneg m pol hm hpol s2 s)]
    _ ≤ ∑ s2, P_pi m pol s2 s * D :=
        Finset.sum_le_sum fun s2 _ =>
          mul_le_mul_of_nonneg_left (hD s2) (P_pi_nonneg m pol hm hpol s2 s)
    _ = (∑ s2, P_pi m pol s2 s) * D := (Finset.sum_mul _ _ _).symm
    _ ≤ 1 * D := mul_le_mul_of_nonneg_right (P_pi_col_sum_le_one m pol hm hpol s) hD0
    _ = D := one_mul D

lemma policy_evaluation_delta_nonneg {S A : ℕ} (m : MDP S A)
    (pol : Fin S → Fin A → ℚ) (γ : ℚ) (hS : 0 < S) (n : ℕ) :
    0 ≤ policy_evaluation_delta m pol γ hS n := by
  unfold policy_evaluation_delta
  exact le_trans (abs_nonneg _)
    (Finset.le_sup'
      (fun s => |policy_evaluation_iterates m pol γ (n + 1) s
        - policy_evaluation_iterates m pol γ n s|)
      (Finset.mem_univ (⟨0, hS⟩ : Fin S)))

/-- C1: when the evaluation loop's stopping test succeeds (the `n`-th sweep
moved no state by `ε` or more), the vector it returns — iterate `n+1` — is a
fixed point of the synchronous Bellman expectation operator for the current
policy, up to strictly less than `ε` in every state. -/
theorem policy_evaluation_bellman_fixed_point {S A : ℕ} (hS : 0 < S)
    (m : MDP S A) (pol : Fin S → Fin A → ℚ) (γ ε : ℚ)
    (hpol : RowStochastic pol) (hm : ValidTransitions m)
    (hγ0 : 0 < γ) (hγ1 : γ ≤ 1) (hε : 0 < ε) (n : ℕ)
    (hstop : policy_evaluation_delta m pol γ hS n < ε) :
    ∀ s, |policy_evaluation_iterates m pol γ (n + 1) s
            - bellmanOp m pol γ (policy_evaluation_iterates m pol γ (n + 1)) s| < ε := by
  intro s
  have hD : ∀ t, |policy_evaluation_iterates m pol γ n t
      - policy_evaluation_iterates m pol γ (n + 1) t|
      ≤ policy_evaluation_delta m pol γ hS n := by
    intro t
    rw [abs_sub_comm]
    unfold policy_evaluation_delta
    exact Finset.le_sup'
      (fun s => |policy_evaluation_iterates m pol γ (n + 1) s
        - policy_evaluation_iterates m pol γ n s|)
      (Finset.mem_univ t)
  have hD0 := policy_evaluation_delta_nonneg m pol γ hS n
  have hcontract := bellman_contract m pol γ hm hpol (le_of_lt hγ0)
    (policy_evaluation_iterates m pol γ n)
    (policy_evaluation_iterates m pol γ (n + 1))
    (policy_evaluation_delta m pol γ hS n) hD0 hD s
  calc |policy_evaluation_iterates m pol γ (n + 1) s
          - bellmanOp m pol γ (policy_evaluation_iterates m pol γ (n + 1)) s|
      = |bellmanOp m pol γ (policy_evaluation_iterates m pol γ n) s
          - bellmanOp m pol γ (policy_evaluation_iterates m pol γ (n + 1)) s| := rfl
    _ ≤ γ * policy_evaluation_delta m pol γ hS n := hcontract
    _ ≤ 1 * policy_evaluation_delta m pol γ hS n :=
        mul_le_mul_of_nonneg_right hγ1 hD0
    _ = policy_evaluation_delta m pol γ hS n := one_mul _
    _ < ε := hstop

/-- Witness for C1: a single absorbing state with unit reward, `γ = 1`,
`ε = 1`; the very first sweep already satisfies the stopping test. -/
theorem policy_evaluation_bellman_fixed_point_witness :
    |policy_evaluation_iterates (⟨fun _ _ _ => 1, fun _ _ => 0⟩ : MDP 1 1)
        (fun _ _ => 1) 1 (0 + 1) 0
      - bellmanOp (⟨fun _ _ _ => 1, fun _ _ => 0⟩ : MDP 1 1) (fun _ _ => 1) 1
          (policy_evaluation_iterates (⟨fun _ _ _ => 1, fun _ _ => 0⟩ : MDP 1 1)
            (fun _ _ => 1) 1 (0 + 1)) 0| < 1 :=
  policy_evaluation_bellman_fixed_point Nat.one_pos _ _ 1 1
    (fun s => ⟨fun a => zero_le_one, by simp⟩)
    ⟨fun s2 s a => zero_le_one, fun s a => by simp⟩
    one_pos le_rfl one_pos 0
    (by simp [policy_evaluation_delta, policy_evaluation_iterates, bellmanOp,
      r_pi, P_pi])
    0

/-! ### Termination of the evaluation loop -/

lemma policy_evaluation_delta_le_pow {S A : ℕ} (m : MDP S A)
    (pol : Fin S → Fin A → ℚ) (γ : ℚ) (hS : 0 < S)
    (hm : ValidTransitions m) (hpol : RowStochastic pol) (hγ0 : 0 ≤ γ) :
    ∀ n, policy_evaluation_delta m pol γ hS n
      ≤ γ ^ n * policy_evaluation_delta m pol γ hS 0
  | 0 => by rw [pow_zero, one_mul]
  | n + 1 => by
    have ih := policy_evaluation_delta_le_pow m pol γ hS hm hpol hγ0 n
    have hD0 := policy_evaluation_delta_nonneg m pol γ hS n
    have hD : ∀ t, |policy_evaluation_iterates m pol γ (n + 1) t
        - policy_evaluation_iterates m pol γ n t|
        ≤ policy_evaluation_delta m pol γ hS n := by
      intro t
      unfold policy_evaluation_delta
      exact Finset.le_sup'
        (fun s => |policy_evaluation_iterates m pol γ (n + 1) s
          - policy_evaluation_iterates m pol γ n s|)
        (Finset.mem_univ t)
    have hstep : policy_evaluation_delta m pol γ hS (n + 1)
        ≤ γ * policy_evaluation_delta m pol γ hS n := by
      unfold policy_evaluation_delta
      apply Finset.sup'_le
      intro s _
      exact bellman_contract m pol γ hm hpol hγ0
        (policy_evaluation_iterates m pol γ (n + 1))
        (policy_evaluation_iterates m pol γ n)
        (policy_evaluation_delta m pol γ hS n) hD0 hD s
    calc policy_evaluation_delta m pol γ hS (n + 1)
        ≤ γ * policy_evaluation_delta m pol γ hS n := hstep
      _ ≤ γ * (γ ^ n * policy_evaluation_delta m pol γ hS 0) :=
          mul_le_mul_of_nonneg_left ih hγ0
      _ = γ ^ (n + 1) * policy_evaluation_delta m pol γ hS 0 := by ring

/-- A one-state MDP that self-loops with probability `1` and reward `1`:
with `γ = 1` every sweep moves the value by exactly `1`, so the evaluation
loop's stopping test never succeeds. -/
def oneLoopMDP : MDP 1 1 :=
  ⟨fun _ _ _ => 1, fun _ _ => 1⟩

/-- The (unique) policy on one state and one action. -/
def oneLoopPolicy : Fin 1 → Fin 1 → ℚ :=
  fun _ _ => 1

lemma oneLoop_iterates :
    ∀ n, policy_evaluation_iterates oneLoopMDP oneLoopPolicy 1 n = fun _ => (n : ℚ)
  | 0 => by
    funext s
    simp [policy_evaluation_iterates]
  | n + 1 => by
    funext s
    show bellmanOp oneLoopMDP oneLoopPolicy 1
      (policy_evaluation_iterates oneLoopMDP oneLoopPolicy 1 n) s = ((n + 1 : ℕ) : ℚ)
    rw [oneLoop_iterates n]
    unfold bellmanOp r_pi P_pi oneLoopMDP oneLoopPolicy
    push_cast
    simp [Fin.sum_univ_one]
    ring

lemma oneLoop_delta (n : ℕ) :
    policy_evaluation_delta oneLoopMDP oneLoopPolicy 1 Nat.one_pos n = 1 := by
  unfold policy_evaluation_delta
  rw [oneLoop_iterates n, oneLoop_iterates (n + 1)]
  have h1 : (fun s : Fin 1 => |(fun _ : Fin 1 => ((n + 1 : ℕ) : ℚ)) s
      - (fun _ : Fin 1 => ((n : ℕ) : ℚ)) s|) = fun _ => (1 : ℚ) := by
    funext s
    push_cast
    rw [show ((n : ℚ) + 1 - n = 1) by ring, abs_one]
  rw [h1, Finset.sup'_const]

/-- C8: the evaluation loop has no iteration cap; for every valid input with
`γ < 1` the stopping test eventually succeeds (the synchronous sweep
contracts the sup-norm step geometrically), while the concrete `γ = 1`
self-looping MDP with unit reward defeats the stopping test at every
iteration, so on it the loop runs forever. -/
theorem policy_evaluation_termination :
    (∀ (S A : ℕ) (hS : 0 < S) (m : MDP S A) (pol : Fin S → Fin A → ℚ) (γ ε : ℚ),
        RowStochastic pol → ValidTransitions m → 0 ≤ γ → γ < 1 → 0 < ε →
        ∃ n, policy_evaluation_delta m pol γ hS n < ε) ∧
    ∀ n, ¬ policy_evaluation_delta oneLoopMDP oneLoopPolicy 1 Nat.one_pos n < 1 / 2 := by
  constructor
  · intro S A hS m pol γ ε hpol hm hγ0 hγ1 hε
    have hδ0nn := policy_evaluation_delta_nonneg m pol γ hS 0
    rcases eq_or_lt_of_le hδ0nn with heq | hpos
    · refine ⟨0, ?_⟩
      rw [← heq]
      exact hε
    · obtain ⟨n, hn⟩ := exists_pow_lt_of_lt_one
        (div_pos hε hpos) hγ1
      refine ⟨n, lt_of_le_of_lt
        (policy_evaluation_delta_le_pow m pol γ hS hm hpol hγ0 n) ?_⟩
      calc γ ^ n * policy_evaluation_delta m pol γ hS 0
          < ε / policy_evaluation_delta m pol γ hS 0
              * policy_evaluation_delta m pol γ hS 0 :=
            mul_lt_mul_of_pos_right hn hpos
        _ = ε := div_mul_cancel₀ ε (ne_of_gt hpos)
  · intro n
    rw [oneLoop_delta n]
    norm_num

/-- Witness for C8's universally quantified part: a one-state absorbing MDP
with zero reward and `γ = 1/2` terminates below `ε = 1`. -/
theorem policy_evaluation_termination_witness :
    ∃ n, policy_evaluation_delta (⟨fun _ _ _ => 1, fun _ _ => 0⟩ : MDP 1 1)
      oneLoopPolicy (1 / 2) Nat.one_pos n < 1 :=
  policy_evaluation_termination.1 1 1 Nat.one_pos _ oneLoopPolicy (1 / 2) 1
    (fun s => ⟨fun a => zero_le_one, by simp [oneLoopPolicy]⟩)
    ⟨fun s2 s a => zero_le_one, fun s a => by simp⟩
    (by norm_num) (by norm_num) one_pos

/-! ### Greedy improvement: monotonicity -/

lemma bellmanOp_eq_sum_Q {S A : ℕ} (m : MDP S A) (pol : Fin S → Fin A → ℚ)
    (γ : ℚ) (v : Fin S → ℚ) (s : Fin S) :
    bellmanOp m pol γ v s = ∑ a, pol s a * compute_Q_from_v m v γ s a := by
  unfold bellmanOp r_pi P_pi compute_Q_from_v
  rw [Finset.mul_sum]
  calc (∑ a, m.r s a * pol s a)
        + ∑ t, γ * ((∑ a, m.P t s a * pol s a) * v t)
      = (∑ a, m.r s a * pol s a)
        + ∑ t, ∑ a, pol s a * (γ * (m.P t s a * v t)) := by
        congr 1
        refine Finset.sum_congr rfl fun t _ => ?_
        rw [Finset.sum_mul, Finset.mul_sum]
        exact Finset.sum_congr rfl fun a _ => by ring
    _ = (∑ a, m.r s a * pol s a)
        + ∑ a, ∑ t, pol s a * (γ * (m.P t s a * v t)) := by
        rw [Finset.sum_comm]
    _ = ∑ a, (m.r s a * pol s a + ∑ t, pol s a * (γ * (m.P t s a * v t))) :=
        Finset.sum_add_distrib.symm
    _ = ∑ a, pol s a * (m.r s a + γ * ∑ t, m.P t s a * v t) := by
        refine Finset.sum_congr rfl fun a _ => ?_
        rw [mul_add, mul_comm (pol s a) (m.r s a)]
        congr 1
        rw [Finset.mul_sum, Finset.mul_sum]

lemma sum_pol_mul_le {A : ℕ} (pol : Fin A → ℚ) (hnn : ∀ a, 0 ≤ pol a)
    (hsum : ∑ a, pol a = 1) (g : Fin A → ℚ) (M : ℚ) (hM : ∀ a, g a ≤ M) :
    ∑ a, pol a * g a ≤ M := by
  calc ∑ a, pol a * g a
      ≤ ∑ a, pol a * M :=
        Finset.sum_le_sum fun a _ => mul_le_mul_of_nonneg_left (hM a) (hnn a)
    _ = (∑ a, pol a) * M := (Finset.sum_mul _ _ _).symm
    _ = M := by rw [hsum, one_mul]

lemma detPolicy_rowStochastic {S A : ℕ} (d : Fin S → Fin A) :
    RowStochastic (detPolicy d) := by
  intro s
  constructor
  · intro a
    unfold detPolicy
    split_ifs
    · exact zero_le_one
    · exact le_refl 0
  · unfold detPolicy
    rw [Finset.sum_ite_eq' Finset.univ _ (fun _ => (1 : ℚ))]
    simp

lemma bellmanOp_detPolicy {S A : ℕ} (m : MDP S A) (d : Fin S → Fin A) (γ : ℚ)
    (v : Fin S → ℚ) (s : Fin S) :
    bellmanOp m (detPolicy d) γ v s = compute_Q_from_v m v γ s (d s) := by
  rw [bellmanOp_eq_sum_Q]
  unfold detPolicy
  simp only [ite_mul, one_mul, zero_mul, Finset.sum_ite_eq', Finset.mem_univ,
    if_true]

lemma bellmanOp_sub {S A : ℕ} (m : MDP S A) (pol : Fin S → Fin A → ℚ) (γ : ℚ)
    (v w : Fin S → ℚ) (s : Fin S) :
    bellmanOp m pol γ v s - bellmanOp m pol γ w s
      = γ * ∑ s2, P_pi m pol s2 s * (v s2 - w s2) := by
  have hsub : (∑ s2, P_pi m pol s2 s * v s2) - (∑ s2, P_pi m pol s2 s * w s2)
      = ∑ s2, P_pi m pol s2 s * (v s2 - w s2) := by
    rw [← Finset.sum_sub_distrib]
    exact Finset.sum_congr rfl fun s2 _ => (mul_sub _ _ _).symm
  unfold bellmanOp
  rw [← hsub]
  ring

/-- The policy improvement theorem for exact value functions: if `v` is the
Bellman fixed point of `pol` and `w` is the Bellman fixed point of the policy
the code's greedy step builds from `compute_Q_from_v m v γ`, then `w`
dominates `v` state-wise. -/
lemma value_le_greedy_value {S A : ℕ} (hS : 0 < S) (hA : 0 < A) (m : MDP S A)
    (hm : ValidTransitions m) (γ : ℚ) (hγ0 : 0 ≤ γ) (hγ1 : γ < 1)
    (pol : Fin S → Fin A → ℚ) (hpol : RowStochastic pol) (v w : Fin S → ℚ)
    (hv : bellmanOp m pol γ v = v)
    (hw : bellmanOp m (greedy_policy (compute_Q_from_v m v γ) hA) γ w = w) :
    ∀ s, v s ≤ w s := by
  have hgp : greedy_policy (compute_Q_from_v m v γ) hA
      = detPolicy (greedyAction m γ hA v) := rfl
  have hdrs := detPolicy_rowStochastic (greedyAction m γ hA v)
  have hwfix : bellmanOp m (detPolicy (greedyAction m γ hA v)) γ w = w := by
    rw [← hgp]
    exact hw
  have hstep1 : ∀ s, v s ≤ bellmanOp m (detPolicy (greedyAction m γ hA v)) γ v s := by
    intro s
    calc v s = bellmanOp m pol γ v s := (congrFun hv s).symm
      _ = ∑ a, pol s a * compute_Q_from_v m v γ s a := bellmanOp_eq_sum_Q m pol γ v s
      _ ≤ compute_Q_from_v m v γ s (greedyAction m γ hA v s) :=
          sum_pol_mul_le (pol s) (hpol s).1 (hpol s).2 _ _
            (npArgmax_spec (fun a => compute_Q_from_v m v γ s a) hA).1
      _ = bellmanOp m (detPolicy (greedyAction m γ hA v)) γ v s :=
          (bellmanOp_detPolicy m (greedyAction m γ hA v) γ v s).symm
  by_contra hc
  push_neg at hc
  obtain ⟨s0, hs0⟩ := hc
  obtain ⟨sM, _, hsM⟩ :=
    Finset.exists_mem_eq_sup' (univNonempty hS) (fun s => v s - w s)
  have hble : ∀ t, v t - w t
      ≤ Finset.univ.sup' (univNonempty hS) (fun s => v s - w s) := by
    intro t
    exact Finset.le_sup' (fun s => v s - w s) (Finset.mem_univ t)
  have hMpos : 0 < Finset.univ.sup' (univNonempty hS) (fun s => v s - w s) :=
    lt_of_lt_of_le (by linarith) (hble s0)
  have h1 : v sM - w sM
      ≤ bellmanOp m (detPolicy (greedyAction m γ hA v)) γ v sM
        - bellmanOp m (detPolicy (greedyAction m γ hA v)) γ w sM := by
    have ha := hstep1 sM
    have hb := congrFun hwfix sM
    linarith
  have h3 : ∑ s2, P_pi m (detPolicy (greedyAction m γ hA v)) s2 sM * (v s2 - w s2)
      ≤ Finset.univ.sup' (univNonempty hS) (fun s => v s - w s) := by
    calc ∑ s2, P_pi m (detPolicy (greedyAction m γ hA v)) s2 sM * (v s2 - w s2)
        ≤ ∑ s2, P_pi m (detPolicy (greedyAction m γ hA v)) s2 sM
            * Finset.univ.sup' (univNonempty hS) (fun s => v s - w s) :=
          Finset.sum_le_sum fun s2 _ =>
            mul_le_mul_of_nonneg_left (hble s2) (P_pi_nonneg m _ hm hdrs s2 sM)
      _ = (∑ s2, P_pi m (detPolicy (greedyAction m γ hA v)) s2 sM)
            * Finset.univ.sup' (univNonempty hS) (fun s => v s - w s) :=
          (Finset.sum_mul _ _ _).symm
      _ ≤ 1 * Finset.univ.sup' (univNonempty hS) (fun s => v s - w s) :=
          mul_le_mul_of_nonneg_right (P_pi_col_sum_le_one m _ hm hdrs sM)
            (le_of_lt hMpos)
      _ = Finset.univ.sup' (univNonempty hS) (fun s => v s - w s) := one_mul _
  have hkey : Finset.univ.sup' (univNonempty hS) (fun s => v s - w s)
      ≤ γ * Finset.univ.sup' (univNonempty hS) (fun s => v s - w s) := by
    calc Finset.univ.sup' (univNonempty hS) (fun s => v s - w s)
        = v sM - w sM := hsM
      _ ≤ bellmanOp m (detPolicy (greedyAction m γ hA v)) γ v sM
          - bellmanOp m (detPolicy (greedyAction m γ hA v)) γ w sM := h1
      _ = γ * ∑ s2, P_pi m (detPolicy (greedyAction m γ hA v)) s2 sM
            * (v s2 - w s2) := bellmanOp_sub m _ γ v w sM
      _ ≤ γ * Finset.univ.sup' (univNonempty hS) (fun s => v s - w s) :=
          mul_le_mul_of_nonneg_left h3 hγ0
  have hlt : γ * Finset.univ.sup' (univNonempty hS) (fun s => v s - w s)
      < 1 * Finset.univ.sup' (univNonempty hS) (fun s => v s - w s) :=
    mul_lt_mul_of_pos_right hγ1 hMpos
  rw [one_mul] at hlt
  linarith

/-- C5, amended: the claim as stated — state-wise non-decreasing policy
value across the code's rounds — fails: the rounds build the greedy policy
from the ε-approximate evaluation output, and on the trap MDP a state's
value strictly decreases from round 1 to round 2
(`policy_improvement_monotone_counterexample`).  Amended to what the
counterexample forces: when the round-`k` evaluation is exact — `v` is the
Bellman fixed point of the round-`k` policy, unique for `γ < 1` — the value
function `w` of the deterministic policy the code's greedy step builds from
`compute_Q_from_v m v γ` is state-wise at least `v`: no state's value gets
worse. -/
theorem policy_improvement_monotone {S A : ℕ} (hS : 0 < S) (hA : 0 < A)
    (m : MDP S A) (hm : ValidTransitions m) (γ : ℚ) (hγ0 : 0 ≤ γ) (hγ1 : γ < 1)
    (pol : Fin S → Fin A → ℚ) (hpol : RowStochastic pol) (v w : Fin S → ℚ)
    (hv : bellmanOp m pol γ v = v)
    (hw : bellmanOp m (greedy_policy (compute_Q_from_v m v γ) hA) γ w = w) :
    ∀ s, v s ≤ w s :=
  value_le_greedy_value hS hA m hm γ hγ0 hγ1 pol hpol v w hv hw

/-- Witness for C5: the one-state self-loop MDP with unit reward and
`γ = 1/2`, whose unique policy has value `2`. -/
theorem policy_improvement_monotone_witness : (2 : ℚ) ≤ 2 :=
  policy_improvement_monotone Nat.one_pos Nat.one_pos oneLoopMDP
    ⟨fun s2 s a => zero_le_one, fun s a => by
      simp [oneLoopMDP, Fin.sum_univ_one]⟩
    (1 / 2) (by norm_num) (by norm_num)
    oneLoopPolicy (fun s => ⟨fun a => zero_le_one, by simp [oneLoopPolicy]⟩)
    (fun _ => 2) (fun _ => 2)
    (by
      funext s
      simp [bellmanOp, r_pi, P_pi, oneLoopMDP, oneLoopPolicy, Fin.sum_univ_one]
      norm_num)
    (by
      funext s
      simp [bellmanOp, r_pi, P_pi, oneLoopMDP, greedy_policy, detPolicy,
        compute_Q_from_v, Fin.sum_univ_one, eq_iff_true_of_subsingleton]
      norm_num)
    0

/-! ### Termination of policy improvement -/

lemma bellman_fixed_point_unique {S A : ℕ} (hS : 0 < S) (m : MDP S A)
    (hm : ValidTransitions m) (γ : ℚ) (hγ0 : 0 ≤ γ) (hγ1 : γ < 1)
    (pol : Fin S → Fin A → ℚ) (hpol : RowStochastic pol) (u w : Fin S → ℚ)
    (hu : bellmanOp m pol γ u = u) (hw : bellmanOp m pol γ w = w) : u = w := by
  have hble : ∀ t, |u t - w t|
      ≤ Finset.univ.sup' (univNonempty hS) (fun s => |u s - w s|) :=
    fun t => Finset.le_sup' (fun s => |u s - w s|) (Finset.mem_univ t)
  have hM0 : 0 ≤ Finset.univ.sup' (univNonempty hS) (fun s => |u s - w s|) :=
    le_trans (abs_nonneg _) (hble ⟨0, hS⟩)
  have hMle : Finset.univ.sup' (univNonempty hS) (fun s => |u s - w s|)
      ≤ γ * Finset.univ.sup' (univNonempty hS) (fun s => |u s - w s|) := by
    apply Finset.sup'_le
    intro s _
    calc |u s - w s| = |bellmanOp m pol γ u s - bellmanOp m pol γ w s| := by
          rw [hu, hw]
      _ ≤ γ * Finset.univ.sup' (univNonempty hS) (fun s => |u s - w s|) :=
          bellman_contract m pol γ hm hpol hγ0 u w _ hM0 hble s
  have hM_eq : Finset.univ.sup' (univNonempty hS) (fun s => |u s - w s|) = 0 := by
    rcases eq_or_lt_of_le hM0 with h | h
    · exact h.symm
    · exfalso
      have hmul := mul_lt_mul_of_pos_right hγ1 h
      rw [one_mul] at hmul
      linarith
  funext s
  have h1 : |u s - w s| ≤ 0 := hM_eq ▸ hble s
  have h2 : u s - w s = 0 := abs_nonpos_iff.mp h1
  linarith

/-! ### A concrete MDP on which the code's rounds are not monotone

Rewards of magnitude at most `5·10⁻⁹` are below the evaluation loop's fixed
tolerance `ε = 10⁻⁸`, so for every policy the loop's stopping test already
succeeds after the very first sweep and `policy_evaluation` returns the
myopic vector `r_π` instead of the value function.  The greedy step built
from that vector walks into a trap. -/

/-- Reward scale `10⁻⁹`, strictly below the code's `epsilon = 1e-8`. -/
def trapDelta : ℚ := 1 / 10 ^ 9

/-- Transitions of the trap MDP (`trapP s2 s a = P(s2 | s, a)`): state `0`
reaches the terminal state `2` under action `0` and the lure state `1` under
action `1`; state `1` always falls into the pain state `3`; states `2` and
`3` move to the terminal state `2`.  Every column is a proper distribution. -/
def trapP : Fin 4 → Fin 4 → Fin 2 → ℚ := fun s2 s a =>
  if s.val = 0 then
    (if a.val = 0 then (if s2.val = 2 then 1 else 0)
      else (if s2.val = 1 then 1 else 0))
  else if s.val = 1 then (if s2.val = 3 then 1 else 0)
  else (if s2.val = 2 then 1 else 0)

/-- Rewards of the trap MDP: the lure state `1` pays `+trapDelta` under
action `0` and `-trapDelta` under action `1`; the pain state `3` costs
`5·trapDelta`; everything else pays `0`. -/
def trapR : Fin 4 → Fin 2 → ℚ := fun s a =>
  if s.val = 1 then (if a.val = 0 then trapDelta else -trapDelta)
  else if s.val = 3 then -(5 * trapDelta)
  else 0

/-- The trap MDP: a valid finite MDP (4 states, 2 actions, proper transition
distributions) whose rewards are all below the evaluation tolerance. -/
def trapMDP : MDP 4 2 :=
  ⟨trapP, trapR⟩

/-- The deterministic policy `policy_improvement` produces at round 1 on the
trap MDP: action `0` everywhere (at state `0` the one-sweep values of both
actions tie at `0` and `np.argmax` keeps the first index). -/
def trapD1 : Fin 4 → Fin 2 := fun _ => 0

/-- The deterministic policy produced at round 2: the round-1 policy's
one-sweep evaluation now shows the lure reward at state `1`, so state `0`
flips to action `1` — into the trap. -/
def trapD2 : Fin 4 → Fin 2 := fun s => if s.val = 0 then 1 else 0

/-- The value function of `trapD1` (γ = 19/20): state `0` goes straight to
the terminal state and is worth `0`. -/
def trapW1 : Fin 4 → ℚ := fun s =>
  if s.val = 1 then -(15 / 4 * trapDelta)
  else if s.val = 3 then -(5 * trapDelta) else 0

/-- The value function of `trapD2`: state `0` now walks through the lure and
the pain state and is worth `-(57/16)·trapDelta < 0`. -/
def trapW2 : Fin 4 → ℚ := fun s =>
  if s.val = 0 then -(57 / 16 * trapDelta) else trapW1 s

lemma finfour_val3 : (3 : Fin 4).val = 3 := rfl

lemma trapMDP_valid : ValidTransitions trapMDP := by
  constructor
  · intro s2 s a
    show (0 : ℚ) ≤ trapP s2 s a
    unfold trapP
    split_ifs <;> norm_num
  · intro s a
    rw [Fin.sum_univ_four]
    fin_cases s <;> fin_cases a <;>
      norm_num [trapMDP, trapP, finfour_val3]

lemma npArgmax_two (f : Fin 2 → ℚ) (h : 0 < 2) :
    npArgmax f h = if f 0 < f 1 then 1 else 0 := by
  show ((List.finRange 2).drop 1).foldl (argmaxStep f) ⟨0, h⟩ = _
  have h1 : (List.finRange 2).drop 1 = [1] := rfl
  rw [h1, List.foldl_cons, List.foldl_nil]
  rfl

lemma trap_iter1_uniform :
    policy_evaluation_iterates trapMDP (uniform_policy 4 2) (19 / 20) 1
      = fun s => if s.val = 3 then -(5 * trapDelta) else 0 := by
  funext s
  fin_cases s <;>
    simp [policy_evaluation_iterates, bellmanOp, r_pi, P_pi, trapMDP, trapP,
      trapR, uniform_policy, Fin.sum_univ_two, Fin.sum_univ_four, trapDelta,
      finfour_val3] <;>
    norm_num

lemma trap_delta_uniform :
    policy_evaluation_delta trapMDP (uniform_policy 4 2) (19 / 20)
      (by norm_num) 0 < 1 / 10 ^ 8 := by
  unfold policy_evaluation_delta
  rw [Finset.sup'_lt_iff]
  intro s _
  rw [trap_iter1_uniform]
  fin_cases s <;>
    simp [policy_evaluation_iterates, trapDelta, finfour_val3] <;>
    norm_num [abs_lt]

lemma trap_greedy1 :
    greedyAction trapMDP (19 / 20) two_pos
      (fun s => if s.val = 3 then -(5 * trapDelta) else 0) = trapD1 := by
  funext s
  unfold greedyAction
  rw [npArgmax_two]
  fin_cases s <;>
    simp [compute_Q_from_v, trapMDP, trapP, trapR, Fin.sum_univ_four,
      trapDelta, finfour_val3, trapD1]

lemma trap_iter1_d1 :
    policy_evaluation_iterates trapMDP (detPolicy trapD1) (19 / 20) 1
      = fun s => if s.val = 1 then trapDelta
          else if s.val = 3 then -(5 * trapDelta) else 0 := by
  funext s
  fin_cases s <;>
    simp [policy_evaluation_iterates, bellmanOp, r_pi, P_pi, trapMDP, trapP,
      trapR, detPolicy, trapD1, Fin.sum_univ_two, Fin.sum_univ_four,
      trapDelta, finfour_val3, Fin.ext_iff] <;>
    norm_num

lemma trap_delta_d1 :
    policy_evaluation_delta trapMDP (detPolicy trapD1) (19 / 20)
      (by norm_num) 0 < 1 / 10 ^ 8 := by
  unfold policy_evaluation_delta
  rw [Finset.sup'_lt_iff]
  intro s _
  rw [trap_iter1_d1]
  fin_cases s <;>
    simp [policy_evaluation_iterates, trapDelta, finfour_val3] <;>
    norm_num [abs_lt]

lemma trap_greedy2 :
    greedyAction trapMDP (19 / 20) two_pos
      (fun s => if s.val = 1 then trapDelta
        else if s.val = 3 then -(5 * trapDelta) else 0) = trapD2 := by
  funext s
  unfold greedyAction
  rw [npArgmax_two]
  fin_cases s <;>
    simp [compute_Q_from_v, trapMDP, trapP, trapR, Fin.sum_univ_four,
      trapDelta, finfour_val3, trapD2, Fin.ext_iff] <;>
    norm_num

lemma trapW1_fixed :
    bellmanOp trapMDP (detPolicy trapD1) (19 / 20) trapW1 = trapW1 := by
  funext s
  fin_cases s <;>
    simp [bellmanOp, r_pi, P_pi, trapMDP, trapP, trapR, detPolicy, trapD1,
      trapW1, Fin.sum_univ_two, Fin.sum_univ_four, trapDelta, finfour_val3,
      Fin.ext_iff] <;>
    norm_num

lemma trapW2_fixed :
    bellmanOp trapMDP (detPolicy trapD2) (19 / 20) trapW2 = trapW2 := by
  funext s
  fin_cases s <;>
    simp [bellmanOp, r_pi, P_pi, trapMDP, trapP, trapR, detPolicy, trapD2,
      trapW1, trapW2, Fin.sum_univ_two, Fin.sum_univ_four, trapDelta,
      finfour_val3, Fin.ext_iff] <;>
    norm_num

/-- `trapW1` is THE value function of `trapD1`: any Bellman fixed point of
that policy equals it (γ = 19/20 < 1). -/
lemma trapW1_is_the_value (u : Fin 4 → ℚ)
    (hu : bellmanOp trapMDP (detPolicy trapD1) (19 / 20) u = u) : u = trapW1 :=
  bellman_fixed_point_unique (by norm_num) trapMDP trapMDP_valid (19 / 20)
    (by norm_num) (by norm_num) (detPolicy trapD1)
    (detPolicy_rowStochastic trapD1) u trapW1 hu trapW1_fixed

/-- `trapW2` is THE value function of `trapD2`. -/
lemma trapW2_is_the_value (u : Fin 4 → ℚ)
    (hu : bellmanOp trapMDP (detPolicy trapD2) (19 / 20) u = u) : u = trapW2 :=
  bellman_fixed_point_unique (by norm_num) trapMDP trapMDP_valid (19 / 20)
    (by norm_num) (by norm_num) (detPolicy trapD2)
    (detPolicy_rowStochastic trapD2) u trapW2 hu trapW2_fixed

/-- C5, counterexample to the claim as stated: on the trap MDP (a valid
finite MDP) with `γ = 19/20` and the code's fixed tolerance
`epsilon = 1e-8`, the improvement loop's own evaluation stops after its
first sweep in both of the first two rounds (conjuncts 2 and 5), round 1
builds the deterministic policy `trapD1` from the returned vector and
round 2 builds `trapD2` (conjuncts 3 and 6), the loop does not stop before
round 2 and not at round 2 (conjuncts 4 and 7, the exact-equality tests
fail), `trapW1` and `trapW2` are Bellman fixed points — by
`trapW1_is_the_value`/`trapW2_is_the_value` the unique ones, i.e. the value
functions — of the two round policies (conjuncts 8 and 9), and state `0`'s
value strictly decreases from round 1 to round 2 (conjunct 10): the policy
value is not monotonically non-decreasing across the code's rounds. -/
theorem policy_improvement_monotone_counterexample :
    ValidTransitions trapMDP ∧
    policy_evaluation_delta trapMDP (uniform_policy 4 2) (19 / 20)
      (by norm_num) 0 < 1 / 10 ^ 8 ∧
    greedyAction trapMDP (19 / 20) two_pos
      (policy_evaluation_iterates trapMDP (uniform_policy 4 2) (19 / 20) 1)
      = trapD1 ∧
    detPolicy trapD1 ≠ uniform_policy 4 2 ∧
    policy_evaluation_delta trapMDP (detPolicy trapD1) (19 / 20)
      (by norm_num) 0 < 1 / 10 ^ 8 ∧
    greedyAction trapMDP (19 / 20) two_pos
      (policy_evaluation_iterates trapMDP (detPolicy trapD1) (19 / 20) 1)
      = trapD2 ∧
    detPolicy trapD2 ≠ detPolicy trapD1 ∧
    bellmanOp trapMDP (detPolicy trapD1) (19 / 20) trapW1 = trapW1 ∧
    bellmanOp trapMDP (detPolicy trapD2) (19 / 20) trapW2 = trapW2 ∧
    trapW2 0 < trapW1 0 := by
  refine ⟨trapMDP_valid, trap_delta_uniform, ?_, ?_, trap_delta_d1, ?_, ?_,
    trapW1_fixed, trapW2_fixed, ?_⟩
  · rw [trap_iter1_uniform]
    exact trap_greedy1
  · intro h
    have h00 := congrFun (congrFun h 0) 1
    simp [detPolicy, trapD1, uniform_policy, Fin.ext_iff] at h00
  · rw [trap_iter1_d1]
    exact trap_greedy2
  · intro h
    have h00 := congrFun (congrFun h 0) 0
    simp [detPolicy, trapD1, trapD2, Fin.ext_iff] at h00
  · norm_num [trapW1, trapW2, trapDelta]

